import Mathlib

/-!
Verification of the stock-sorter data-processing core: value normalization,
stable sorting, substring filtering, column discovery, the three-state sort
toggle, cache freshness and outbound links, embedded from the application
source (`App.tsx`).

Modelling conventions for the JavaScript source:
* JS numbers are modelled as exact rationals (`ℚ`); the upstream data is JSON,
  which cannot carry `NaN`/`Infinity`, so record values are finite.
* `undefined` (an absent object property) is modelled as `Option.none`.
* A record (`Stock`) is an association list of field name to value, in
  property insertion order, mirroring `Object.keys`/`Object.values` order for
  the non-integer-like keys this data has.
* `Array.prototype.sort` with a comparator is modelled as the stable
  `List.mergeSort` with the boolean relation `comparator a b ≤ 0`.
* String operations (`trim`, `toLowerCase`, relational `<`) are modelled for
  the ASCII/BMP fragment the data lives in.
-/

namespace StockSorter

/-- A cell value as stored in a record: a JS number or a string. -/
inductive Value where
  | num (q : ℚ)
  | str (s : String)
deriving DecidableEq, Repr

/-- `type Stock = Record<string, string | number>`: field names to values,
in property insertion order. -/
abbrev Stock := List (String × Value)

/-- `type SortDirection = 'asc' | 'desc'`. -/
inductive SortDirection where
  | asc
  | desc
deriving DecidableEq, Repr

/-- A JS number as produced by `ToNumber` on a string: `NaN`, infinities, or a
finite value (idealised as an exact rational). -/
inductive JsNum where
  | nan
  | posInf
  | negInf
  | fin (q : ℚ)
deriving DecidableEq, Repr

/-- The whitespace characters `String.prototype.trim` removes, for the ASCII
data this program handles. -/
def isJsWhitespace (c : Char) : Bool :=
  c = ' ' || c = '\t' || c = '\n' || c = '\r'

/-- `s.trim()`: strip leading and trailing whitespace. -/
def jsTrim (s : String) : String :=
  ⟨((s.data.dropWhile isJsWhitespace).reverse.dropWhile isJsWhitespace).reverse⟩

/-- `s.toLowerCase()`, for the ASCII letters this data contains. -/
def jsToLower (s : String) : String :=
  ⟨s.data.map Char.toLower⟩

/-- The characters kept by `trimmed.replace(/[^\d,.\-]/g, '')`:
digits, comma, dot, minus. -/
def isNumericChar (c : Char) : Bool :=
  c.isDigit || c = ',' || c = '.' || c = '-'

/-- `String.prototype.replace(',', '.')` with a string pattern replaces only
the first occurrence. -/
def replaceFirstComma : List Char → List Char
  | [] => []
  | c :: cs => if c = ',' then '.' :: cs else c :: replaceFirstComma cs

/-- Value of a list of decimal digit characters, most significant first. -/
def digitsToNat (cs : List Char) : Nat :=
  cs.foldl (fun a c => 10 * a + (c.toNat - '0'.toNat)) 0

/-- Unsigned decimal mantissa of the JS number grammar: decimal digits with at
most one dot and at least one digit (`"12"`, `"12."`, `".5"`, `"12.5"`). -/
def parseUnsignedDecChars (cs : List Char) : Option ℚ :=
  if cs.all (fun c => c.isDigit || c = '.') then
    match (cs.filter (· = '.')).length with
    | 0 => if cs.isEmpty then none else some (digitsToNat cs)
    | 1 =>
      let intPart := cs.takeWhile (· ≠ '.')
      let fracPart := (cs.dropWhile (· ≠ '.')).tail
      if intPart.isEmpty && fracPart.isEmpty then none
      else some ((digitsToNat intPart : ℚ) + (digitsToNat fracPart : ℚ) / (10 : ℚ) ^ fracPart.length)
    | _ => none
  else none

/-- `Number(s)` for the strings `normalizeValue` feeds it, whose characters
are only digits, comma, dot and minus: the empty string is `0`, an optional
sign is followed by a decimal mantissa, and anything else (a comma, an
interior minus, several dots) is `NaN`, modelled as `none`. -/
def jsNumberOfString (s : String) : Option ℚ :=
  match s.data with
  | [] => some 0
  | '-' :: rest => (parseUnsignedDecChars rest).map (fun q => -q)
  | '+' :: rest => parseUnsignedDecChars rest
  | cs => parseUnsignedDecChars cs

/-- `normalizeValue(value)` from the source: numbers pass through; strings are
trimmed, stripped to `[\d,.\-]`, have their separators normalised (both comma
and dot present: drop dots, first comma becomes dot; only comma: first comma
becomes dot; several dots: drop dots), and are parsed; on parse failure, and
when no numeric character remains, the trimmed lowercased string is returned;
an absent value yields `''`. -/
def normalizeValue (value : Option Value) : Value :=
  match value with
  | some (.num q) => .num q
  | some (.str s) =>
    let trimmed := jsTrim s
    let numericCandidate := trimmed.data.filter isNumericChar
    if numericCandidate.length > 0 then
      let hasComma := numericCandidate.contains ','
      let hasDot := numericCandidate.contains '.'
      let dotCount := (numericCandidate.filter (· = '.')).length
      let normalized :=
        if hasComma && hasDot then replaceFirstComma (numericCandidate.filter (· ≠ '.'))
        else if hasComma then replaceFirstComma numericCandidate
        else if dotCount > 1 then numericCandidate.filter (· ≠ '.')
        else numericCandidate
      match jsNumberOfString ⟨normalized⟩ with
      | some parsed => .num parsed
      | none => .str (jsToLower trimmed)
    else .str (jsToLower trimmed)
  | none => .str ""

/-- Value of one hexadecimal digit character. -/
def hexDigitVal (c : Char) : Option Nat :=
  if c.isDigit then some (c.toNat - '0'.toNat)
  else if 'a' ≤ c ∧ c ≤ 'f' then some (c.toNat - 'a'.toNat + 10)
  else if 'A' ≤ c ∧ c ≤ 'F' then some (c.toNat - 'A'.toNat + 10)
  else none

/-- Nonempty digit string in the given radix (for `0x`/`0o`/`0b` literals). -/
def parseRadixNat (radix : Nat) (cs : List Char) : Option Nat :=
  match cs with
  | [] => none
  | _ => cs.foldl (fun acc c =>
      match acc, hexDigitVal c with
      | some a, some d => if d < radix then some (radix * a + d) else none
      | _, _ => none) (some 0)

/-- Exponent part of the JS number grammar: optional sign then digits. -/
def parseExpPart (cs : List Char) : Option Int :=
  match cs with
  | '+' :: rest => if !rest.isEmpty && rest.all Char.isDigit then some (digitsToNat rest) else none
  | '-' :: rest => if !rest.isEmpty && rest.all Char.isDigit then some (-(digitsToNat rest : Int)) else none
  | _ => if !cs.isEmpty && cs.all Char.isDigit then some (digitsToNat cs) else none

/-- Unsigned decimal literal with optional exponent (`12.5e-3`). -/
def parseDecLiteral (cs : List Char) : Option ℚ :=
  match cs.findIdx? (fun c => c = 'e' || c = 'E') with
  | none => parseUnsignedDecChars cs
  | some i =>
    match parseUnsignedDecChars (cs.take i), parseExpPart (cs.drop (i + 1)) with
    | some m, some e => some (m * (10 : ℚ) ^ e)
    | _, _ => none

/-- Signless part of `StrDecimalLiteral`: `Infinity` or a decimal literal. -/
def jsUnsignedDec (neg : Bool) (cs : List Char) : JsNum :=
  if cs = "Infinity".data then (if neg then .negInf else .posInf)
  else match parseDecLiteral cs with
  | some q => .fin (if neg then -q else q)
  | none => .nan

/-- `StrDecimalLiteral`: optional sign then `Infinity` or a decimal literal. -/
def jsSignedDec (cs : List Char) : JsNum :=
  match cs with
  | '+' :: rest => jsUnsignedDec false rest
  | '-' :: rest => jsUnsignedDec true rest
  | _ => jsUnsignedDec false cs

/-- ECMAScript `ToNumber` on a string, used by the relational operators when a
string is compared against a number: trim, empty is `0`, radix-prefixed
integer literals, otherwise a signed decimal literal; failures are `NaN`. -/
def jsToNumber (s : String) : JsNum :=
  match (jsTrim s).data with
  | [] => .fin 0
  | '0' :: c :: rest =>
    if c = 'x' || c = 'X' then
      match parseRadixNat 16 rest with
      | some n => .fin n
      | none => .nan
    else if c = 'o' || c = 'O' then
      match parseRadixNat 8 rest with
      | some n => .fin n
      | none => .nan
    else if c = 'b' || c = 'B' then
      match parseRadixNat 2 rest with
      | some n => .fin n
      | none => .nan
    else jsSignedDec ('0' :: c :: rest)
  | cs => jsSignedDec cs

/-- `<` between two JS numbers: any comparison with `NaN` is false. -/
def jsNumLt : JsNum → JsNum → Bool
  | .nan, _ => false
  | _, .nan => false
  | .negInf, .negInf => false
  | .negInf, _ => true
  | _, .negInf => false
  | .posInf, _ => false
  | .fin _, .posInf => true
  | .fin x, .fin y => decide (x < y)

/-- JS string `<`: lexicographic by code unit (codepoints, for the BMP data
this program handles). -/
def strLt : List Char → List Char → Bool
  | [], [] => false
  | [], _ :: _ => true
  | _ :: _, [] => false
  | a :: s, b :: t =>
    if a < b then true
    else if b < a then false
    else strLt s t

/-- The JS `<` operator on `string | number` operands, as used by the sort
comparator: numbers compare numerically, strings lexicographically, and in a
mixed comparison the string goes through `ToNumber` (false when `NaN`). -/
def jsLt : Value → Value → Bool
  | .num x, .num y => decide (x < y)
  | .str s, .str t => strLt s.data t.data
  | .num x, .str t => jsNumLt (.fin x) (jsToNumber t)
  | .str s, .num y => jsNumLt (jsToNumber s) (.fin y)

/-- `left[column]` on a record: the value of the field, or absent. -/
def stockGet (stock : Stock) (column : String) : Option Value :=
  (stock.find? (fun kv => kv.1 = column)).map (·.2)

/-- The comparator closure inside `sortStocks`: `-1`/`1`/`0` from the two
`<`/`>` tests on the normalized cell values, flipped when descending
(`a > b` in JS is `b < a` for these operand types). -/
def sortCmp (column : String) (isAsc : Bool) (left right : Stock) : Int :=
  let leftValue := normalizeValue (stockGet left column)
  let rightValue := normalizeValue (stockGet right column)
  if jsLt leftValue rightValue then (if isAsc then -1 else 1)
  else if jsLt rightValue leftValue then (if isAsc then 1 else -1)
  else 0

/-- The boolean "may come first" relation induced by the comparator. -/
def sortLe (column : String) (direction : SortDirection) (left right : Stock) : Bool :=
  sortCmp column (direction = .asc) left right ≤ 0

/-- `sortStocks(stocks, column, direction)`: an empty column key returns a
shallow copy; otherwise a stable sort of a copy by the comparator. -/
def sortStocks (stocks : List Stock) (column : String) (direction : SortDirection) : List Stock :=
  if column = "" then stocks
  else stocks.mergeSort (fun l r => sortLe column direction l r)

/-- Multiplicity of the factor `p` in `n` (used to render terminating
decimal fractions). -/
def factorMult (p : Nat) (n : Nat) : Nat :=
  if h : 2 ≤ p ∧ n % p = 0 ∧ 0 < n then factorMult p (n / p) + 1 else 0
decreasing_by exact Nat.div_lt_self h.2.2 h.1

/-- Left-pad a digit string with zeros to length `k`. -/
def padLeftZeros (s : String) (k : Nat) : String :=
  ⟨List.replicate (k - s.length) '0' ++ s.data⟩

/-- Drop trailing `'0'` characters of a fraction part. -/
def stripTrailingZeros (cs : List Char) : List Char :=
  (cs.reverse.dropWhile (· = '0')).reverse

/-- `String(number)`: the sign, the integer part, and — when the value is not
an integer — a dot and the terminating fraction digits without trailing
zeros. Every value a JS double can take has a power-of-two denominator, for
which the fraction terminates; the final branch is unreachable for such
values and renders the exact fraction. -/
def jsString (q : ℚ) : String :=
  let sign := if q < 0 then "-" else ""
  let n := q.num.natAbs
  let d := q.den
  if d = 1 then sign ++ toString n
  else
    let k := max (factorMult 2 d) (factorMult 5 d)
    if 10 ^ k % d = 0 then
      let scaled := n * (10 ^ k / d)
      let ip := scaled / 10 ^ k
      let fp := scaled % 10 ^ k
      let fracDigits := stripTrailingZeros (padLeftZeros (toString fp) k).data
      sign ++ toString ip ++ "." ++ (⟨fracDigits⟩ : String)
    else
      sign ++ toString n ++ "/" ++ toString d

/-- `String(value)` on a record value. -/
def stringOfValue : Value → String
  | .str s => s
  | .num q => jsString q

/-- Whether `small` is a prefix of `big`, by code unit. -/
def isPrefixOfCU : List Char → List Char → Bool
  | [], _ => true
  | _ :: _, [] => false
  | a :: s, b :: t => a = b && isPrefixOfCU s t

/-- Whether `needle` occurs contiguously in `hay`. -/
def isSubstring (needle : List Char) (hay : List Char) : Bool :=
  match hay with
  | [] => needle.isEmpty
  | _ :: t => isPrefixOfCU needle hay || isSubstring needle t

/-- `hay.includes(needle)` of JS strings. -/
def jsIncludes (hay needle : String) : Bool :=
  isSubstring needle.data hay.data

/-- The record-matching closure inside `filterStocks`: some stringified value
contains the normalized query. -/
def stockMatches (normalized : String) (stock : Stock) : Bool :=
  (stock.map (·.2)).any (fun value => jsIncludes (jsToLower (stringOfValue value)) normalized)

/-- `filterStocks(stocks, query)`: trim and lowercase the query; when empty,
the input list itself; otherwise the records any of whose stringified values
contains the query. -/
def filterStocks (stocks : List Stock) (query : String) : List Stock :=
  let normalized := jsToLower (jsTrim query)
  if normalized.length = 0 then stocks
  else stocks.filter (fun stock => stockMatches normalized stock)

/-- `getColumns(stocks)`: every field name across all records, in first-seen
order, deduplicated (the insertion order of a JS `Set`). -/
def getColumns (stocks : List Stock) : List String :=
  stocks.foldl
    (fun acc stock =>
      stock.foldl (fun keys kv => if kv.1 ∈ keys then keys else keys ++ [kv.1]) acc)
    []

/-- `getStockLink(stock)`: the Fundamentus detail URL keyed by the record's
first value when it is a non-blank string or a number, the Fundamentus
homepage otherwise. -/
def getStockLink (stock : Stock) : String :=
  match (stock.map (·.2)).head? with
  | some (Value.str s) =>
    if (jsTrim s).length > 0 then "https://fundamentus.com.br/detalhes.php?papel=" ++ s
    else "https://fundamentus.com.br/"
  | some (Value.num q) => "https://fundamentus.com.br/detalhes.php?papel=" ++ jsString q
  | none => "https://fundamentus.com.br/"

/-- `STOCKS_CACHE_TTL = 5 * 60 * 1000` milliseconds. -/
def STOCKS_CACHE_TTL : Int := 5 * 60 * 1000

/-- A parsed sessionStorage payload: either it fails the shape check
(`timestamp` not a number or `stocks` not an array), or it is well-formed
with a timestamp in milliseconds and a record list. -/
inductive CachePayload where
  | malformed
  | wellFormed (timestamp : Int) (stocks : List Stock)
deriving DecidableEq

/-- `readStocksCache()` given the current time and the stored entry (`none`
models an absent key, an unavailable storage, or a `JSON.parse` throw):
a malformed or absent entry is a miss, and a well-formed entry is returned
only when its timestamp is within the TTL of the current time. -/
def readStocksCache (now : Int) (raw : Option CachePayload) : Option (List Stock) :=
  match raw with
  | none => none
  | some .malformed => none
  | some (.wellFormed timestamp stocks) =>
    if now - timestamp > STOCKS_CACHE_TTL then none else some stocks

/-- The sorting component state: `useState('')` for `sortColumn` (empty means
unsorted) and `useState<SortDirection>('asc')` for `sortDirection`. -/
structure SortState where
  sortColumn : String
  sortDirection : SortDirection
deriving DecidableEq, Repr

/-- The initial component state. -/
def initialSortState : SortState := ⟨"", .asc⟩

/-- `handleSort(column)` acting on the sort state: a different column starts
ascending; the same column while descending clears the sort; otherwise the
direction toggles. -/
def handleSort (column : String) (s : SortState) : SortState :=
  if column ≠ s.sortColumn then ⟨column, .asc⟩
  else if s.sortDirection = .desc then ⟨"", .asc⟩
  else ⟨s.sortColumn, if s.sortDirection = .asc then .desc else .asc⟩

/-- `handleReset()` acting on the sort state (it also clears the query,
which is not part of this state). -/
def handleReset (_ : SortState) : SortState := ⟨"", .asc⟩

/-- Whether a value is a number. -/
def Value.isNum : Value → Bool
  | .num _ => true
  | .str _ => false

/-- Whether a value is a string. -/
def Value.isStr : Value → Bool
  | .num _ => false
  | .str _ => true

/-- The normalized values of the column are homogeneous: all numbers, or all
strings. On such a column the sort comparator is a total preorder; across the
two kinds it is not (a number ties with every `NaN`-converting string), which
the specification declares implementation-defined. -/
def homogeneousColumn (stocks : List Stock) (column : String) : Prop :=
  (∀ st ∈ stocks, (normalizeValue (stockGet st column)).isNum = true) ∨
  (∀ st ∈ stocks, (normalizeValue (stockGet st column)).isStr = true)

/-- Fuel-indexed form of `List.merge` with structural recursion, so that
concrete merges reduce inside the kernel; it agrees with `List.merge`
whenever the fuel covers the combined length (`mergeFuel_eq`). -/
def mergeFuel {α : Type} (le : α → α → Bool) : Nat → List α → List α → List α
  | _, [], ys => ys
  | _, xs, [] => xs
  | 0, xs, ys => xs ++ ys
  | n + 1, x :: xs, y :: ys =>
    if le x y then x :: mergeFuel le n xs (y :: ys)
    else y :: mergeFuel le n (x :: xs) ys

/-- Fuel-indexed form of `List.mergeSort` with structural recursion, so that
concrete sorts reduce inside the kernel; it agrees with `List.mergeSort`
whenever the fuel covers the length (`mergeSortFuel_eq`). -/
def mergeSortFuel {α : Type} (le : α → α → Bool) : Nat → List α → List α
  | _, [] => []
  | _, [a] => [a]
  | 0, l => l
  | n + 1, a :: b :: xs =>
    let lr := List.splitInTwo ⟨a :: b :: xs, rfl⟩
    mergeFuel le (n + 1) (mergeSortFuel le n lr.1.1) (mergeSortFuel le n lr.2.1)

/-- The string arm of the Value Normalizer exactly as claim C1 words it,
under the reading that makes its own `"Bancos"` example true: an empty
string after stripping and separator handling does not count as a
successful numeric parse. -/
def normalizeStringClaim (s : String) : Value :=
  let trimmed := jsTrim s
  let stripped := trimmed.data.filter isNumericChar
  let hasComma := stripped.contains ','
  let hasDot := stripped.contains '.'
  let separated :=
    if hasComma && hasDot then replaceFirstComma (stripped.filter (· ≠ '.'))
    else if hasComma then replaceFirstComma stripped
    else if (stripped.filter (· = '.')).length > 1 then stripped.filter (· ≠ '.')
    else stripped
  match if separated.isEmpty then none else jsNumberOfString ⟨separated⟩ with
  | some q => .num q
  | none => .str (jsToLower trimmed)

/-- The string arm of the Value Normalizer as claim C1 amended by the `".."`
counterexample: when stripping leaves no characters the trimmed lowercased
string is returned without attempting a parse, and the parse itself follows
JS `Number()`, under which the empty string (which arises when a multi-dot
candidate has all its dots removed) is the number `0`. -/
def normalizeStringAmended (s : String) : Value :=
  let trimmed := jsTrim s
  let stripped := trimmed.data.filter isNumericChar
  if stripped.isEmpty then .str (jsToLower trimmed)
  else
    let separated :=
      if stripped.contains ',' && stripped.contains '.' then
        replaceFirstComma (stripped.filter (· ≠ '.'))
      else if stripped.contains ',' then replaceFirstComma stripped
      else if (stripped.filter (· = '.')).length > 1 then stripped.filter (· ≠ '.')
      else stripped
    match jsNumberOfString ⟨separated⟩ with
    | some q => .num q
    | none => .str (jsToLower trimmed)

/-- First-seen-order deduplication of a key sequence, as claim C5 states
Column Discovery. -/
def firstSeenDedup (keys : List String) : List String :=
  keys.foldl (fun acc k => if k ∈ acc then acc else acc ++ [k]) []

/-- The claim C10 invariant on the sort state: an unsorted state carries the
ascending direction. -/
def SortInvariant (s : SortState) : Prop :=
  s.sortColumn = "" → s.sortDirection = .asc

/-- A mixed-type demonstration column: numbers and a string whose `ToNumber`
is `NaN`. -/
def demoMixed4 : List Stock :=
  [[("x", .num 5)], [("x", .num 0)], [("x", .str "abc")], [("x", .num 0)]]

/-- A longer mixed-type demonstration column. -/
def demoMixed6 : List Stock :=
  [[("x", .num 5)], [("x", .num 0)], [("x", .num 0)], [("x", .num 0)],
   [("x", .str "abc")], [("x", .num 0)]]

/-- A homogeneous numeric demonstration column. -/
def demoNums : List Stock := [[("p", .num 3)], [("p", .num 1)]]

/-! ## Helper lemmas -/

theorem mergeFuel_eq {α : Type} (le : α → α → Bool) :
    ∀ (n : Nat) (xs ys : List α), xs.length + ys.length ≤ n →
      mergeFuel le n xs ys = List.merge xs ys le
  | _, [], ys, _ => by simp [mergeFuel]
  | _, x :: xs, [], _ => by simp [mergeFuel]
  | 0, x :: xs, y :: ys, h => by simp at h
  | n + 1, x :: xs, y :: ys, h => by
    rw [List.cons_merge_cons]
    simp only [mergeFuel]
    simp only [List.length_cons] at h
    split
    · rw [mergeFuel_eq le n xs (y :: ys) (by simp; omega)]
    · rw [mergeFuel_eq le n (x :: xs) ys (by simp; omega)]

theorem mergeSortFuel_eq {α : Type} (le : α → α → Bool) :
    ∀ (n : Nat) (l : List α), l.length ≤ n → mergeSortFuel le n l = l.mergeSort le
  | _, [], _ => by simp [mergeSortFuel]
  | _, [a], _ => by simp [mergeSortFuel]
  | 0, a :: b :: xs, h => by simp at h
  | n + 1, a :: b :: xs, h => by
    have hl1 := (List.splitInTwo ⟨a :: b :: xs, rfl⟩).1.2
    have hl2 := (List.splitInTwo ⟨a :: b :: xs, rfl⟩).2.2
    simp only [List.length_cons] at h hl1 hl2
    have e1 : (List.splitInTwo ⟨a :: b :: xs, rfl⟩).1.1.length ≤ n := by omega
    have e2 : (List.splitInTwo ⟨a :: b :: xs, rfl⟩).2.1.length ≤ n := by omega
    rw [List.mergeSort]
    simp only [mergeSortFuel]
    rw [mergeSortFuel_eq le n _ e1, mergeSortFuel_eq le n _ e2]
    rw [mergeFuel_eq le (n + 1) _ _
      (by rw [List.length_mergeSort, List.length_mergeSort]; omega)]

theorem sortStocks_eq_fuel (stocks : List Stock) (column : String)
    (direction : SortDirection) (h : ¬ column = "") :
    sortStocks stocks column direction
      = mergeSortFuel (fun l r => sortLe column direction l r) stocks.length stocks := by
  rw [sortStocks, if_neg h, mergeSortFuel_eq _ _ _ (Nat.le_refl _)]


theorem strLt_asymm : ∀ (s t : List Char), strLt s t = true → strLt t s = false := by
  intro s
  induction s with
  | nil => intro t h; cases t <;> simp [strLt] at h ⊢
  | cons a s ih =>
    intro t h
    cases t with
    | nil => simp [strLt] at h
    | cons b t =>
      simp only [strLt] at h ⊢
      rcases lt_trichotomy a b with hab | hab | hab
      · rw [if_neg (not_lt_of_lt hab)] at h ⊢
        rw [if_pos hab] at h
        rw [if_pos hab]
      · subst hab
        rw [if_neg (lt_irrefl a)] at h ⊢
        rw [if_neg (lt_irrefl a)] at h ⊢
        exact ih t h
      · rw [if_neg (not_lt_of_lt hab), if_pos hab] at h
        exact absurd h (by simp)

theorem strLt_trans : ∀ (s t u : List Char),
    strLt s t = true → strLt t u = true → strLt s u = true := by
  intro s
  induction s with
  | nil =>
    intro t u h1 h2
    cases t with
    | nil => simp [strLt] at h1
    | cons b t =>
      cases u with
      | nil => simp [strLt] at h2
      | cons c u => simp [strLt]
  | cons a s ih =>
    intro t u h1 h2
    cases t with
    | nil => simp [strLt] at h1
    | cons b t =>
      cases u with
      | nil => simp [strLt] at h2
      | cons c u =>
        simp only [strLt] at h1 h2 ⊢
        rcases lt_trichotomy a b with hab | hab | hab
        · rcases lt_trichotomy b c with hbc | hbc | hbc
          · rw [if_pos (lt_trans hab hbc)]
          · subst hbc; rw [if_pos hab]
          · rw [if_neg (not_lt_of_lt hbc), if_pos hbc] at h2
            exact absurd h2 (by simp)
        · subst hab
          rcases lt_trichotomy a c with hac | hac | hac
          · rw [if_pos hac]
          · subst hac
            rw [if_neg (lt_irrefl a)] at h1 h2 ⊢
            rw [if_neg (lt_irrefl a)] at h1 h2 ⊢
            exact ih t u h1 h2
          · rw [if_neg (not_lt_of_lt hac), if_pos hac] at h2
            exact absurd h2 (by simp)
        · rw [if_neg (not_lt_of_lt hab), if_pos hab] at h1
          exact absurd h1 (by simp)

theorem strLt_eq_of_not : ∀ (s t : List Char),
    strLt s t = false → strLt t s = false → s = t := by
  intro s
  induction s with
  | nil =>
    intro t h1 _
    cases t with
    | nil => rfl
    | cons b t => simp [strLt] at h1
  | cons a s ih =>
    intro t h1 h2
    cases t with
    | nil => simp [strLt] at h2
    | cons b t =>
      simp only [strLt] at h1 h2
      rcases lt_trichotomy a b with hab | hab | hab
      · rw [if_pos hab] at h1; exact absurd h1 (by simp)
      · subst hab
        rw [if_neg (lt_irrefl a)] at h1 h2
        rw [if_neg (lt_irrefl a)] at h1 h2
        rw [ih t h1 h2]
      · rw [if_pos hab] at h2; exact absurd h2 (by simp)

theorem jsNumLt_asymm : ∀ (p q : JsNum), jsNumLt p q = true → jsNumLt q p = false := by
  intro p q h
  cases p <;> cases q <;> simp_all [jsNumLt]
  exact le_of_lt h

theorem jsLt_asymm (v w : Value) (h : jsLt v w = true) : jsLt w v = false := by
  cases v <;> cases w <;> simp only [jsLt] at h ⊢
  · simp_all
    exact le_of_lt h
  · exact jsNumLt_asymm _ _ h
  · exact jsNumLt_asymm _ _ h
  · exact strLt_asymm _ _ h

theorem sortLe_asc (c : String) (a b : Stock) :
    sortLe c .asc a b
      = !jsLt (normalizeValue (stockGet b c)) (normalizeValue (stockGet a c)) := by
  by_cases h1 : jsLt (normalizeValue (stockGet a c)) (normalizeValue (stockGet b c)) = true <;>
    by_cases h2 : jsLt (normalizeValue (stockGet b c)) (normalizeValue (stockGet a c)) = true
  · exact absurd (jsLt_asymm _ _ h1) (by simp [h2])
  all_goals
    simp only [Bool.not_eq_true] at h1 h2 <;> simp [sortLe, sortCmp, h1, h2]

theorem sortLe_desc (c : String) (a b : Stock) :
    sortLe c .desc a b
      = !jsLt (normalizeValue (stockGet a c)) (normalizeValue (stockGet b c)) := by
  by_cases h1 : jsLt (normalizeValue (stockGet a c)) (normalizeValue (stockGet b c)) = true <;>
    by_cases h2 : jsLt (normalizeValue (stockGet b c)) (normalizeValue (stockGet a c)) = true
  · exact absurd (jsLt_asymm _ _ h1) (by simp [h2])
  all_goals
    simp only [Bool.not_eq_true] at h1 h2 <;> simp [sortLe, sortCmp, h1, h2]

theorem sortLe_trans_num (c : String) (d : SortDirection) {a b e : Stock}
    (ha : (normalizeValue (stockGet a c)).isNum = true)
    (hb : (normalizeValue (stockGet b c)).isNum = true)
    (he : (normalizeValue (stockGet e c)).isNum = true)
    (h1 : sortLe c d a b = true) (h2 : sortLe c d b e = true) :
    sortLe c d a e = true := by
  cases hva : normalizeValue (stockGet a c) with
  | str s => rw [hva] at ha; simp [Value.isNum] at ha
  | num x =>
    cases hvb : normalizeValue (stockGet b c) with
    | str s => rw [hvb] at hb; simp [Value.isNum] at hb
    | num y =>
      cases hve : normalizeValue (stockGet e c) with
      | str s => rw [hve] at he; simp [Value.isNum] at he
      | num z =>
        cases d
        · simp only [sortLe_asc, hva, hvb, hve, jsLt, Bool.not_eq_true',
            decide_eq_false_iff_not, not_lt] at h1 h2 ⊢
          linarith
        · simp only [sortLe_desc, hva, hvb, hve, jsLt, Bool.not_eq_true',
            decide_eq_false_iff_not, not_lt] at h1 h2 ⊢
          linarith

theorem sortLe_total_num (c : String) (d : SortDirection) {a b : Stock}
    (ha : (normalizeValue (stockGet a c)).isNum = true)
    (hb : (normalizeValue (stockGet b c)).isNum = true) :
    (sortLe c d a b || sortLe c d b a) = true := by
  cases hva : normalizeValue (stockGet a c) with
  | str s => rw [hva] at ha; simp [Value.isNum] at ha
  | num x =>
    cases hvb : normalizeValue (stockGet b c) with
    | str s => rw [hvb] at hb; simp [Value.isNum] at hb
    | num y =>
      cases d
      · simp only [sortLe_asc, hva, hvb, jsLt, Bool.or_eq_true, Bool.not_eq_true',
          decide_eq_false_iff_not, not_lt]
        rcases le_total x y with h | h
        · exact Or.inl h
        · exact Or.inr h
      · simp only [sortLe_desc, hva, hvb, jsLt, Bool.or_eq_true, Bool.not_eq_true',
          decide_eq_false_iff_not, not_lt]
        rcases le_total x y with h | h
        · exact Or.inr h
        · exact Or.inl h

theorem strLt_not_trans {sa sb se : List Char}
    (h1 : strLt sb sa = false) (h2 : strLt se sb = false) : strLt se sa = false := by
  by_contra hcon
  simp only [Bool.not_eq_false] at hcon
  by_cases hab : strLt sa sb = true
  · have := strLt_trans se sa sb hcon hab
    rw [h2] at this
    exact absurd this (by simp)
  · simp only [Bool.not_eq_true] at hab
    have heq := strLt_eq_of_not sb sa h1 hab
    rw [← heq] at hcon
    rw [h2] at hcon
    exact absurd hcon (by simp)

theorem sortLe_trans_str (c : String) (d : SortDirection) {a b e : Stock}
    (ha : (normalizeValue (stockGet a c)).isStr = true)
    (hb : (normalizeValue (stockGet b c)).isStr = true)
    (he : (normalizeValue (stockGet e c)).isStr = true)
    (h1 : sortLe c d a b = true) (h2 : sortLe c d b e = true) :
    sortLe c d a e = true := by
  cases hva : normalizeValue (stockGet a c) with
  | num x => rw [hva] at ha; simp [Value.isStr] at ha
  | str sa =>
    cases hvb : normalizeValue (stockGet b c) with
    | num x => rw [hvb] at hb; simp [Value.isStr] at hb
    | str sb =>
      cases hve : normalizeValue (stockGet e c) with
      | num x => rw [hve] at he; simp [Value.isStr] at he
      | str se =>
        cases d
        · simp only [sortLe_asc, hva, hvb, hve, jsLt, Bool.not_eq_true'] at h1 h2 ⊢
          exact strLt_not_trans h1 h2
        · simp only [sortLe_desc, hva, hvb, hve, jsLt, Bool.not_eq_true'] at h1 h2 ⊢
          exact strLt_not_trans h2 h1

theorem sortLe_total_str (c : String) (d : SortDirection) {a b : Stock}
    (ha : (normalizeValue (stockGet a c)).isStr = true)
    (hb : (normalizeValue (stockGet b c)).isStr = true) :
    (sortLe c d a b || sortLe c d b a) = true := by
  cases hva : normalizeValue (stockGet a c) with
  | num x => rw [hva] at ha; simp [Value.isStr] at ha
  | str sa =>
    cases hvb : normalizeValue (stockGet b c) with
    | num x => rw [hvb] at hb; simp [Value.isStr] at hb
    | str sb =>
      cases d
      · simp only [sortLe_asc, hva, hvb, jsLt, Bool.or_eq_true, Bool.not_eq_true']
        by_cases h : strLt sb.data sa.data = true
        · exact Or.inr (strLt_asymm _ _ h)
        · exact Or.inl (by simpa using h)
      · simp only [sortLe_desc, hva, hvb, jsLt, Bool.or_eq_true, Bool.not_eq_true']
        by_cases h : strLt sa.data sb.data = true
        · exact Or.inr (strLt_asymm _ _ h)
        · exact Or.inl (by simpa using h)

theorem mergeSort_pairwise_restricted {α : Type} {P : α → Prop} {le : α → α → Bool}
    {l : List α} (hl : ∀ a ∈ l, P a)
    (htrans : ∀ a b c : α, P a → P b → P c → le a b = true → le b c = true → le a c = true)
    (htotal : ∀ a b : α, P a → P b → (le a b || le b a) = true) :
    (l.mergeSort le).Pairwise (fun a b => le a b = true) := by
  have hmap : (l.attachWith P hl).map Subtype.val = l :=
    List.attachWith_map_subtype_val l hl
  have key : l.mergeSort le
      = ((l.attachWith P hl).mergeSort (fun a b => le a.1 b.1)).map Subtype.val := by
    have h2 := @List.map_mergeSort _ _ (fun a b : {x // P x} => le a.1 b.1) le
      Subtype.val (l.attachWith P hl) (fun a _ b _ => rfl)
    rw [hmap] at h2
    exact h2.symm
  rw [key]
  have hp : ((l.attachWith P hl).mergeSort (fun a b => le a.1 b.1)).Pairwise
      (fun a b => le a.1 b.1 = true) :=
    List.sorted_mergeSort
      (fun a b c hab hbc => htrans a.1 b.1 c.1 a.2 b.2 c.2 hab hbc)
      (fun a b => htotal a.1 b.1 a.2 b.2) _
  exact hp.map Subtype.val (fun a b h => h)

theorem mergeSort_pair_sublist_restricted {α : Type} {P : α → Prop} {le : α → α → Bool}
    {l : List α} (hl : ∀ a ∈ l, P a)
    (htrans : ∀ a b c : α, P a → P b → P c → le a b = true → le b c = true → le a c = true)
    (htotal : ∀ a b : α, P a → P b → (le a b || le b a) = true)
    {a b : α} (hab : le a b = true) (hsub : [a, b].Sublist l) :
    [a, b].Sublist (l.mergeSort le) := by
  have hmap : (l.attachWith P hl).map Subtype.val = l :=
    List.attachWith_map_subtype_val l hl
  have key : l.mergeSort le
      = ((l.attachWith P hl).mergeSort (fun a b => le a.1 b.1)).map Subtype.val := by
    have h2 := @List.map_mergeSort _ _ (fun a b : {x // P x} => le a.1 b.1) le
      Subtype.val (l.attachWith P hl) (fun a _ b _ => rfl)
    rw [hmap] at h2
    exact h2.symm
  have hsub' : [a, b].Sublist ((l.attachWith P hl).map Subtype.val) := by
    rw [hmap]; exact hsub
  obtain ⟨l', hl', heq⟩ := List.sublist_map_iff.mp hsub'
  match l', heq, hl' with
  | [a', b'], heq, hl' =>
    simp only [List.map_cons, List.map_nil, List.cons.injEq, and_true] at heq
    obtain ⟨ha', hb'⟩ := heq
    subst ha'
    subst hb'
    have hpair : [a', b'].Sublist
        ((l.attachWith P hl).mergeSort (fun a b => le a.1 b.1)) :=
      List.pair_sublist_mergeSort
        (fun x y z hxy hyz => htrans x.1 y.1 z.1 x.2 y.2 z.2 hxy hyz)
        (fun x y => htotal x.1 y.1 x.2 y.2) hab hl'
    rw [key]
    exact hpair.map Subtype.val


/-! ## Claims about the Sorter (C2, C6) -/

theorem sortStocks_pairwise_le (stocks : List Stock) (column : String)
    (direction : SortDirection) (hc : ¬ column = "") (hhom : homogeneousColumn stocks column) :
    (sortStocks stocks column direction).Pairwise
      (fun a b => sortLe column direction a b = true) := by
  rw [sortStocks, if_neg hc]
  rcases hhom with hnum | hstr
  · exact mergeSort_pairwise_restricted hnum
      (fun a b e ha hb he h1 h2 => sortLe_trans_num column direction ha hb he h1 h2)
      (fun a b ha hb => sortLe_total_num column direction ha hb)
  · exact mergeSort_pairwise_restricted hstr
      (fun a b e ha hb he h1 h2 => sortLe_trans_str column direction ha hb he h1 h2)
      (fun a b ha hb => sortLe_total_str column direction ha hb)

theorem sortStocks_stable_pairs (stocks : List Stock) (column : String)
    (direction : SortDirection) (hhom : homogeneousColumn stocks column)
    {a b : Stock} (hsub : [a, b].Sublist stocks)
    (h1 : jsLt (normalizeValue (stockGet a column)) (normalizeValue (stockGet b column)) = false)
    (h2 : jsLt (normalizeValue (stockGet b column)) (normalizeValue (stockGet a column)) = false) :
    [a, b].Sublist (sortStocks stocks column direction) := by
  by_cases hc : column = ""
  · rw [sortStocks, if_pos hc]
    exact hsub
  · rw [sortStocks, if_neg hc]
    have hab : sortLe column direction a b = true := by
      cases direction
      · rw [sortLe_asc, h2]; rfl
      · rw [sortLe_desc, h1]; rfl
    rcases hhom with hnum | hstr
    · exact mergeSort_pair_sublist_restricted hnum
        (fun x y z hx hy hz hxy hyz => sortLe_trans_num column direction hx hy hz hxy hyz)
        (fun x y hx hy => sortLe_total_num column direction hx hy) hab hsub
    · exact mergeSort_pair_sublist_restricted hstr
        (fun x y z hx hy hz hxy hyz => sortLe_trans_str column direction hx hy hz hxy hyz)
        (fun x y hx hy => sortLe_total_str column direction hx hy) hab hsub

/-- C2 (amended): the Sorter with an empty column key returns the list in
input order; with a non-empty column key it returns a reordering
(permutation) of the input; provided the normalized values of the column are
homogeneous (all numbers or all strings), the records are ordered by their
normalized values — ascending never places a strictly `<`-smaller normalized
value after a larger one, descending reverses this — and records whose
normalized values tie keep their relative input order. Mixed number/string
columns make the JS comparator inconsistent and are excluded (see
`sortStocks_counterexample`). -/
theorem sortStocks_spec (stocks : List Stock) (column : String) (direction : SortDirection) :
    sortStocks stocks "" direction = stocks ∧
    (sortStocks stocks column direction).Perm stocks ∧
    (column ≠ "" → homogeneousColumn stocks column →
      (sortStocks stocks column .asc).Pairwise
        (fun a b => jsLt (normalizeValue (stockGet b column))
          (normalizeValue (stockGet a column)) = false)) ∧
    (column ≠ "" → homogeneousColumn stocks column →
      (sortStocks stocks column .desc).Pairwise
        (fun a b => jsLt (normalizeValue (stockGet a column))
          (normalizeValue (stockGet b column)) = false)) ∧
    (homogeneousColumn stocks column → ∀ a b : Stock, [a, b].Sublist stocks →
      jsLt (normalizeValue (stockGet a column)) (normalizeValue (stockGet b column)) = false →
      jsLt (normalizeValue (stockGet b column)) (normalizeValue (stockGet a column)) = false →
      [a, b].Sublist (sortStocks stocks column direction)) := by
  refine ⟨by rw [sortStocks, if_pos rfl], ?_, ?_, ?_, ?_⟩
  · by_cases hc : column = ""
    · rw [sortStocks, if_pos hc]
    · rw [sortStocks, if_neg hc]
      exact List.mergeSort_perm stocks _
  · intro hc hhom
    have hp := sortStocks_pairwise_le stocks column .asc hc hhom
    exact hp.imp (fun h => by rwa [sortLe_asc, Bool.not_eq_true'] at h)
  · intro hc hhom
    have hp := sortStocks_pairwise_le stocks column .desc hc hhom
    exact hp.imp (fun h => by rwa [sortLe_desc, Bool.not_eq_true'] at h)
  · intro hhom a b hsub h1 h2
    exact sortStocks_stable_pairs stocks column direction hhom hsub h1 h2

/-- C6 (amended): sorting twice by the same column and direction equals
sorting once, provided the normalized values of the column are homogeneous
(all numbers or all strings); on mixed columns the inconsistent comparator
defeats idempotence (see `sortStocks_not_idempotent`). -/
theorem sortStocks_idem (stocks : List Stock) (column : String) (direction : SortDirection)
    (hhom : homogeneousColumn stocks column) :
    sortStocks (sortStocks stocks column direction) column direction
      = sortStocks stocks column direction := by
  by_cases hc : column = ""
  · rw [hc]
    simp [sortStocks]
  · have hp := sortStocks_pairwise_le stocks column direction hc hhom
    rw [sortStocks, if_neg hc]
    exact List.mergeSort_of_sorted hp

/-- C2 counterexample: sorting the mixed column `[5, 0, "abc", 0]` ascending
yields `[0, 5, "abc", 0]`, in which the final record's normalized value `0`
is strictly smaller than the normalized value `5` placed before it, so the
claimed ordering fails as stated. -/
theorem sortStocks_counterexample :
    sortStocks demoMixed4 "x" .asc
      = [[("x", .num 0)], [("x", .num 5)], [("x", .str "abc")], [("x", .num 0)]] ∧
    ¬ (sortStocks demoMixed4 "x" .asc).Pairwise
        (fun a b => jsLt (normalizeValue (stockGet b "x"))
          (normalizeValue (stockGet a "x")) = false) := by
  have h1 : sortStocks demoMixed4 "x" .asc
      = [[("x", .num 0)], [("x", .num 5)], [("x", .str "abc")], [("x", .num 0)]] := by
    rw [sortStocks_eq_fuel _ _ _ (by decide)]
    decide
  refine ⟨h1, ?_⟩
  rw [h1]
  decide

/-- Witness for C2 at a concrete homogeneous numeric column. -/
theorem sortStocks_spec_witness :
    (sortStocks demoNums "p" .asc).Pairwise
      (fun a b => jsLt (normalizeValue (stockGet b "p"))
        (normalizeValue (stockGet a "p")) = false) :=
  (sortStocks_spec demoNums "p" .asc).2.2.1 (by decide) (Or.inl (by decide))

/-- Witness for C6 at a concrete homogeneous numeric column. -/
theorem sortStocks_idem_witness :
    sortStocks (sortStocks demoNums "p" .asc) "p" .asc = sortStocks demoNums "p" .asc :=
  sortStocks_idem demoNums "p" .asc (Or.inl (by decide))

/-- C6 counterexample: sorting the mixed column `[5, 0, 0, 0, "abc", 0]`
ascending and then sorting the result again changes it, so sorting is not
idempotent as claimed. -/
theorem sortStocks_not_idempotent :
    sortStocks (sortStocks demoMixed6 "x" .asc) "x" .asc ≠ sortStocks demoMixed6 "x" .asc := by
  have h1 : sortStocks demoMixed6 "x" .asc =
      [[("x", .num 0)], [("x", .num 0)], [("x", .num 0)], [("x", .num 5)],
       [("x", .str "abc")], [("x", .num 0)]] := by
    rw [sortStocks_eq_fuel _ _ _ (by decide)]
    decide
  rw [h1, sortStocks_eq_fuel _ _ _ (by decide)]
  decide


/-! ## Claims about the Normalizer and the toggle (C1, C3, C10) -/

/-- C1 counterexample: for the input `".."` the stripped candidate `".."`
has more than one dot, so all dots are removed; the claim's "if the result
parses as a number" must fail on the empty result (otherwise its own
`"Bancos"` example would be the number 0), making the claimed value the
string `".."` — but the code calls `Number('')`, which is `0`, and returns
the number `0`. -/
theorem normalizeValue_counterexample :
    normalizeValue (some (.str "..")) = .num 0 ∧
    normalizeStringClaim ".." = .str ".." ∧
    Value.num 0 ≠ Value.str ".." :=
  ⟨by decide, by decide, by decide⟩

/-- C1 (amended): a native number passes through unchanged; a string is
stripped to digits, comma, dot and minus — when nothing remains, the trimmed
lowercased string is returned without a parse — then separators are
normalised (comma and dot both present: dots removed, first comma becomes
the dot; only a comma: it becomes the dot; more than one dot: dots removed)
and the result is parsed by JS `Number()` semantics, under which an empty
string is `0`; on parse failure the trimmed lowercased string is returned.
In particular `"R$ 38,50"` yields `38.5`, `"12.345,67"` yields `12345.67`,
`"8,5%"` yields `8.5`, and `"Bancos"` yields `"bancos"`. -/
theorem normalizeValue_spec :
    (∀ q : ℚ, normalizeValue (some (.num q)) = .num q) ∧
    (∀ s : String, normalizeValue (some (.str s)) = normalizeStringAmended s) ∧
    normalizeValue (some (.str "R$ 38,50")) = .num (77 / 2) ∧
    normalizeValue (some (.str "12.345,67")) = .num (1234567 / 100) ∧
    normalizeValue (some (.str "8,5%")) = .num (17 / 2) ∧
    normalizeValue (some (.str "Bancos")) = .str "bancos" := by
  refine ⟨fun q => rfl, fun s => ?_, ?_, ?_, ?_, by decide⟩
  · simp only [normalizeValue, normalizeStringAmended]
    cases h : (jsTrim s).data.filter isNumericChar with
    | nil => simp [h]
    | cons c cs => simp [h]
  · have h : normalizeValue (some (.str "R$ 38,50"))
        = .num ((digitsToNat ['3', '8'] : ℚ) + (digitsToNat ['5', '0'] : ℚ) / (10 : ℚ) ^ 2) := rfl
    have h1 : digitsToNat ['3', '8'] = 38 := rfl
    have h2 : digitsToNat ['5', '0'] = 50 := rfl
    rw [h, h1, h2, Value.num.injEq]
    norm_num
  · have h : normalizeValue (some (.str "12.345,67"))
        = .num ((digitsToNat ['1', '2', '3', '4', '5'] : ℚ)
            + (digitsToNat ['6', '7'] : ℚ) / (10 : ℚ) ^ 2) := rfl
    have h1 : digitsToNat ['1', '2', '3', '4', '5'] = 12345 := rfl
    have h2 : digitsToNat ['6', '7'] = 67 := rfl
    rw [h, h1, h2, Value.num.injEq]
    norm_num
  · have h : normalizeValue (some (.str "8,5%"))
        = .num ((digitsToNat ['8'] : ℚ) + (digitsToNat ['5'] : ℚ) / (10 : ℚ) ^ 1) := rfl
    have h1 : digitsToNat ['8'] = 8 := rfl
    have h2 : digitsToNat ['5'] = 5 := rfl
    rw [h, h1, h2, Value.num.injEq]
    norm_num

/-- C3: the three-state toggle on "column clicked": from any state whose
active column differs from the clicked column — in particular from the
unsorted initial state — the new state is ascending on the clicked column;
clicking the ascending column turns it descending; clicking the descending
column returns to unsorted. The clicked column is an actual column name and
therefore nonempty; the empty string is the code's sentinel for
"unsorted". -/
theorem handleSort_spec (column : String) (hc : column ≠ "") :
    (∀ s : SortState, s.sortColumn ≠ column → handleSort column s = ⟨column, .asc⟩) ∧
    handleSort column initialSortState = ⟨column, .asc⟩ ∧
    handleSort column ⟨column, .asc⟩ = ⟨column, .desc⟩ ∧
    handleSort column ⟨column, .desc⟩ = ⟨"", .asc⟩ := by
  refine ⟨fun s hs => ?_, ?_, ?_, ?_⟩
  · rw [handleSort, if_pos (fun h => hs h.symm)]
  · rw [handleSort, if_pos]
    exact fun h => hc h
  · rw [handleSort, if_neg (fun h => h rfl)]
    simp
  · rw [handleSort, if_neg (fun h => h rfl)]
    simp

/-- Witness for C3 on the column `"Papel"`. -/
theorem handleSort_spec_witness :
    handleSort "Papel" ⟨"Setor", .asc⟩ = ⟨"Papel", .asc⟩ ∧
    handleSort "Papel" initialSortState = ⟨"Papel", .asc⟩ ∧
    handleSort "Papel" ⟨"Papel", .asc⟩ = ⟨"Papel", .desc⟩ ∧
    handleSort "Papel" ⟨"Papel", .desc⟩ = ⟨"", .asc⟩ :=
  ⟨(handleSort_spec "Papel" (by decide)).1 ⟨"Setor", .asc⟩ (by decide),
   (handleSort_spec "Papel" (by decide)).2.1,
   (handleSort_spec "Papel" (by decide)).2.2.1,
   (handleSort_spec "Papel" (by decide)).2.2.2⟩

/-- C10: whenever the sort column is empty the direction is ascending: the
invariant holds initially, is preserved by `handleSort` for every clicked
column name (nonempty; the empty string is the unsorted sentinel) and by
`handleReset`, and consequently a click from the unsorted state always
starts ascending. -/
theorem sortInvariant_spec :
    SortInvariant initialSortState ∧
    (∀ (column : String) (s : SortState), column ≠ "" → SortInvariant s →
      SortInvariant (handleSort column s)) ∧
    (∀ s : SortState, SortInvariant (handleReset s)) ∧
    (∀ (column : String) (s : SortState), column ≠ "" → s.sortColumn = "" →
      handleSort column s = ⟨column, .asc⟩) := by
  refine ⟨fun _ => rfl, fun column s hc _ => ?_, fun s _ => rfl, fun column s hc hcol => ?_⟩
  · rw [handleSort]
    by_cases hne : column ≠ s.sortColumn
    · rw [if_pos hne]
      intro h
      exact absurd h hc
    · rw [if_neg hne]
      simp only [not_not] at hne
      by_cases hd : s.sortDirection = .desc
      · rw [if_pos hd]
        exact fun _ => rfl
      · rw [if_neg hd]
        intro h
        rw [h] at hne
        exact absurd hne hc
  · rw [handleSort, if_pos]
    rw [hcol]
    exact fun h => hc h

/-- Witness for C10 on the column `"Papel"` from the initial state. -/
theorem sortInvariant_spec_witness :
    SortInvariant (handleSort "Papel" initialSortState) ∧
    handleSort "Papel" ⟨"", .asc⟩ = ⟨"Papel", .asc⟩ :=
  ⟨sortInvariant_spec.2.1 "Papel" initialSortState (by decide) (fun _ => rfl),
   sortInvariant_spec.2.2.2 "Papel" ⟨"", .asc⟩ (by decide) rfl⟩


/-! ## Claims about the Filter, Column Discovery, cache, links and missing values (C4, C5, C7, C8, C9) -/

/-- C4: the Filter trims and lowercases the query; when the trimmed query is
empty (in particular for the empty query) it returns the full list
unchanged; otherwise it keeps exactly the records some of whose stringified
field values contain the normalized query, in input order — so the result is
always a sublist (hence subset) of the input. -/
theorem filterStocks_spec (stocks : List Stock) (query : String) :
    (filterStocks stocks query).Sublist stocks ∧
    (jsTrim query = "" → filterStocks stocks query = stocks) ∧
    filterStocks stocks "" = stocks ∧
    (jsToLower (jsTrim query) ≠ "" →
      ∀ st : Stock, st ∈ filterStocks stocks query ↔
        st ∈ stocks ∧ stockMatches (jsToLower (jsTrim query)) st = true) := by
  refine ⟨?_, fun hq => ?_, rfl, fun hne st => ?_⟩
  · by_cases h : (jsToLower (jsTrim query)).length = 0
    · rw [filterStocks, if_pos h]
    · rw [filterStocks, if_neg h]
      exact List.filter_sublist _
  · rw [filterStocks, if_pos (by rw [hq]; rfl)]
  · have h : ¬ (jsToLower (jsTrim query)).length = 0 := by
      intro h0
      exact hne (String.ext (List.length_eq_zero.mp h0))
    rw [filterStocks, if_neg h]
    exact List.mem_filter

/-- Witness for C4 on a whitespace query and on the query `"3"`. -/
theorem filterStocks_spec_witness :
    filterStocks demoNums "  " = demoNums ∧
    ([("p", Value.num 3)] ∈ filterStocks demoNums "3" ↔
      [("p", Value.num 3)] ∈ demoNums ∧
        stockMatches (jsToLower (jsTrim "3")) [("p", Value.num 3)] = true) :=
  ⟨(filterStocks_spec demoNums "  ").2.1 (by decide),
   (filterStocks_spec demoNums "3").2.2.2 (by decide) [("p", Value.num 3)]⟩

theorem foldl_dedupStep_flatMap :
    ∀ (stocks : List Stock) (init : List String),
      stocks.foldl
        (fun acc stock =>
          stock.foldl (fun keys kv => if kv.1 ∈ keys then keys else keys ++ [kv.1]) acc)
        init
      = (stocks.flatMap (fun st => st.map (·.1))).foldl
          (fun acc k => if k ∈ acc then acc else acc ++ [k]) init := by
  intro stocks
  induction stocks with
  | nil => intro init; rfl
  | cons st rest ih =>
    intro init
    simp only [List.foldl_cons, List.flatMap_cons, List.foldl_append]
    rw [ih]
    congr 1
    rw [List.foldl_map]

theorem nodup_foldl_dedupStep :
    ∀ (keys init : List String), init.Nodup →
      (keys.foldl (fun acc k => if k ∈ acc then acc else acc ++ [k]) init).Nodup := by
  intro keys
  induction keys with
  | nil => intro init h; exact h
  | cons k rest ih =>
    intro init h
    simp only [List.foldl_cons]
    apply ih
    by_cases hk : k ∈ init
    · rw [if_pos hk]; exact h
    · rw [if_neg hk]
      simp [List.nodup_append, h, hk]

/-- C5: Column Discovery returns the field names of all records, in
first-seen order across the whole list, deduplicated; the empty list yields
the empty sequence, and the quoted two-record example yields
`["a", "b", "c"]`. -/
theorem getColumns_spec (stocks : List Stock) :
    getColumns stocks = firstSeenDedup (stocks.flatMap (fun st => st.map (·.1))) ∧
    (getColumns stocks).Nodup ∧
    getColumns ([] : List Stock) = [] ∧
    getColumns [[("a", .num 1), ("b", .num 2)], [("b", .num 3), ("c", .num 4)]]
      = ["a", "b", "c"] := by
  have h1 : getColumns stocks = firstSeenDedup (stocks.flatMap (fun st => st.map (·.1))) :=
    foldl_dedupStep_flatMap stocks []
  refine ⟨h1, ?_, rfl, by decide⟩
  rw [h1]
  exact nodup_foldl_dedupStep _ [] List.nodup_nil

/-- C7: the cache read returns the stored records exactly when the entry is
well-formed and its timestamp is at most the 5-minute TTL (300000 ms) before
the current time; an absent or malformed entry, and a well-formed entry
older than the TTL, are misses returning `none`. -/
theorem readStocksCache_spec (now : Int) (raw : Option CachePayload) :
    STOCKS_CACHE_TTL = 300000 ∧
    (∀ stocks : List Stock, readStocksCache now raw = some stocks ↔
      ∃ timestamp : Int, raw = some (.wellFormed timestamp stocks) ∧
        now - timestamp ≤ STOCKS_CACHE_TTL) ∧
    (∀ (timestamp : Int) (stocks : List Stock), now - timestamp > STOCKS_CACHE_TTL →
      readStocksCache now (some (.wellFormed timestamp stocks)) = none) ∧
    readStocksCache now none = none ∧
    readStocksCache now (some CachePayload.malformed) = none := by
  refine ⟨rfl, fun stocks => ?_, fun timestamp stocks h => ?_, rfl, rfl⟩
  · cases raw with
    | none => simp [readStocksCache]
    | some payload =>
      cases payload with
      | malformed => simp [readStocksCache]
      | wellFormed ts l =>
        simp only [readStocksCache, Option.some.injEq, CachePayload.wellFormed.injEq]
        by_cases hts : now - ts > STOCKS_CACHE_TTL
        · rw [if_pos hts]
          constructor
          · intro hcon; exact absurd hcon (by simp)
          · rintro ⟨t, ⟨hteq, hleq⟩, hle⟩
            subst hteq
            omega
        · rw [if_neg hts]
          constructor
          · intro hcon
            injection hcon with hcon
            exact ⟨ts, ⟨rfl, hcon⟩, by omega⟩
          · rintro ⟨t, ⟨hteq, hleq⟩, hle⟩
            subst hteq
            rw [hleq]
  · rw [readStocksCache, if_pos h]

/-- Witness for C7: a structurally valid entry one millisecond past the TTL
is discarded. -/
theorem readStocksCache_spec_witness :
    readStocksCache 300001 (some (CachePayload.wellFormed 0 [])) = none :=
  (readStocksCache_spec 300001 (some (CachePayload.wellFormed 0 []))).2.2.1 0 [] (by decide)

/-- C8 counterexample: for a record whose first field value is the empty
string the code returns the bare homepage, not the `detalhes.php` URL the
claim requires for every record. -/
theorem getStockLink_counterexample :
    getStockLink [("Papel", Value.str "")] = "https://fundamentus.com.br/" ∧
    "https://fundamentus.com.br/" ≠ "https://fundamentus.com.br/detalhes.php?papel=" :=
  ⟨rfl, by decide⟩

/-- C8 (amended): the outbound URL is
`https://fundamentus.com.br/detalhes.php?papel=<first-field-value>` whenever
the record's first field value is a string with non-blank trim or a number
(stringified); when the first value is a blank string or the record has no
fields, the plain homepage `https://fundamentus.com.br/` is returned
instead. -/
theorem getStockLink_spec (stock : Stock) :
    (∀ s : String, (stock.map (·.2)).head? = some (.str s) → (jsTrim s).length > 0 →
      getStockLink stock = "https://fundamentus.com.br/detalhes.php?papel=" ++ s) ∧
    (∀ q : ℚ, (stock.map (·.2)).head? = some (.num q) →
      getStockLink stock = "https://fundamentus.com.br/detalhes.php?papel=" ++ jsString q) ∧
    (∀ s : String, (stock.map (·.2)).head? = some (.str s) → (jsTrim s).length = 0 →
      getStockLink stock = "https://fundamentus.com.br/") ∧
    ((stock.map (·.2)).head? = none → getStockLink stock = "https://fundamentus.com.br/") := by
  refine ⟨fun s hs hlen => ?_, fun q hq => ?_, fun s hs hlen => ?_, fun hn => ?_⟩
  · unfold getStockLink
    rw [hs]
    exact if_pos hlen
  · unfold getStockLink
    rw [hq]
  · unfold getStockLink
    rw [hs]
    exact if_neg (by simp [hlen])
  · unfold getStockLink
    rw [hn]

/-- Witness for C8 on the ticker `"PETR4"`. -/
theorem getStockLink_spec_witness :
    getStockLink [("Papel", Value.str "PETR4")]
      = "https://fundamentus.com.br/detalhes.php?papel=" ++ "PETR4" :=
  (getStockLink_spec [("Papel", Value.str "PETR4")]).1 "PETR4" rfl (by decide)

/-- C9: a record that lacks the sort column normalizes to the empty string;
in the ascending comparator it compares strictly before (`-1`) any record
whose normalized value is a non-empty string, and ties (`0`) with any other
record missing the column, rather than causing an error. -/
theorem normalizeValue_missing (st other st2 : Stock) (column : String) (t : String)
    (hmiss : stockGet st column = none)
    (ht : normalizeValue (stockGet other column) = .str t) (hne : t ≠ "")
    (hm2 : stockGet st2 column = none) :
    normalizeValue (stockGet st column) = .str "" ∧
    sortCmp column true st other = -1 ∧
    sortCmp column true st st2 = 0 := by
  have h0 : normalizeValue (stockGet st column) = .str "" := by rw [hmiss]; rfl
  have h02 : normalizeValue (stockGet st2 column) = .str "" := by rw [hm2]; rfl
  have hlt : jsLt (.str "") (.str t) = true := by
    simp only [jsLt]
    cases hd : t.data with
    | nil =>
      exfalso
      apply hne
      cases t
      simp at hd
      rw [hd]
    | cons c cs => rfl
  refine ⟨h0, ?_, ?_⟩
  · simp [sortCmp, h0, ht, hlt]
  · simp [sortCmp, h0, h02, jsLt, strLt]

/-- Witness for C9 against the normalized string `"bancos"`. -/
theorem normalizeValue_missing_witness :
    normalizeValue (stockGet [("y", Value.num 1)] "x") = .str "" ∧
    sortCmp "x" true [("y", Value.num 1)] [("x", Value.str "Bancos")] = -1 ∧
    sortCmp "x" true [("y", Value.num 1)] [("z", Value.num 2)] = 0 :=
  normalizeValue_missing _ _ _ "x" "bancos" (by decide) (by decide) (by decide) (by decide)

end StockSorter
